import Mathlib

/-!
Verification of the greedy task-allocation core of `smart-task-allocator`
(`src/backend/server.js`): the scorer `calculateMatchScore`, the allocator
`allocateTasks`, the statistics block of the `/api/allocate` route and the
`/api/reset` route.

Modelling conventions of the shallow embedding:
JavaScript numbers are modelled as exact rationals (`Rat`); the division used
by the statistics, whose result is not a finite number when the divisor is
`0`, is modelled by the `Option`-valued `divNF` (`none` playing `NaN`).
The three priority strings accepted by the `priorityOrder` map are modelled
by the inductive `Priority`; deadlines, compared through
`new Date(a.deadline) - new Date(b.deadline)`, by natural timestamps.
JavaScript objects keyed by skill name (`member.skillLevels`) are modelled by
association lists, reading a missing key giving `none` (`undefined`).
`Array.prototype.sort` is, by the ECMAScript specification, a stable sort,
modelled by a stable insertion sort; each task is tagged with its index in
the input array, the tag standing for the object identity through which the
allocator writes `task.assignedTo` in place.  The allocator's in-place
mutation of the member array, the task array and the growing `assignments`
array is modelled by explicit state passing (`AllocState`).
-/

namespace STA

/-- Reading a property of a JavaScript object keyed by strings
(`member.skillLevels[requiredSkill]`); `none` models `undefined`. -/
def lookupSkill : List (String × Rat) → String → Option Rat
  | [], _ => none
  | (k, v) :: rest, s => if k = s then some v else lookupSkill rest s

/-- A team member, the shape of `teamData.members[i]` in `server.js`. -/
structure Member where
  id : Nat
  name : String
  skills : List String
  skillLevels : List (String × Rat)
  currentWorkload : Rat
  maxCapacity : Rat
  deriving DecidableEq

/-- The three priority strings the `priorityOrder` map of `allocateTasks`
knows: `'high'`, `'medium'`, `'low'`. -/
inductive Priority where
  | high
  | medium
  | low
  deriving DecidableEq

/-- A task, the shape of `teamData.tasks[i]`.  `deadline` is the timestamp
`new Date(task.deadline)` evaluates to; `assignedTo` is `null` or a member
id. -/
structure Task where
  id : Nat
  title : String
  description : String
  requiredSkills : List String
  estimatedHours : Rat
  priority : Priority
  deadline : Nat
  assignedTo : Option Nat
  deriving DecidableEq

/-- The map `{ 'high': 3, 'medium': 2, 'low': 1 }` of `allocateTasks`. -/
def priorityOrder : Priority → Nat
  | .high => 3
  | .medium => 2
  | .low => 1

/-- The sort comparator of `allocateTasks`: difference of priority values
when they differ (descending priority), difference of the two deadline
timestamps otherwise (ascending deadline).  A negative result means `a`
comes first. -/
def taskCompare (a b : Task) : Int :=
  if priorityOrder a.priority ≠ priorityOrder b.priority then
    (priorityOrder b.priority : Int) - (priorityOrder a.priority : Int)
  else
    (a.deadline : Int) - (b.deadline : Int)

/-- Whether the comparator puts `p` strictly before `q`; the input-index
tags are ignored, exactly as the comparator never looks at positions. -/
def taggedBefore (p q : Nat × Task) : Bool :=
  decide (taskCompare p.2 q.2 < 0)

/-- Insert `x` after every element the comparator puts strictly before it:
the position a stable sort gives a newly considered element. -/
def insertSorted {α : Type} (lt : α → α → Bool) (x : α) : List α → List α
  | [] => [x]
  | y :: ys => if lt y x then y :: insertSorted lt x ys else x :: y :: ys

/-- Stable sort, modelling `[...tasks].sort(comparator)`: the ECMAScript
sort is stable, and for a consistent comparator its output is the unique
permutation sorted by the comparator that keeps ties in input order. -/
def stableSort {α : Type} (lt : α → α → Bool) : List α → List α
  | [] => []
  | x :: xs => insertSorted lt x (stableSort lt xs)

/-- Pair every element of a list with its position, starting at `n`. -/
def tagFrom {α : Type} (n : Nat) : List α → List (Nat × α)
  | [] => []
  | x :: xs => (n, x) :: tagFrom (n + 1) xs

/-- The sorted working copy `sortedTasks` of `allocateTasks`, each task
tagged with its index in the input array. -/
def sortTasks (ts : List Task) : List (Nat × Task) :=
  stableSort taggedBefore (tagFrom 0 ts)

/-- The skill-matching loop of `calculateMatchScore`: walk
`task.requiredSkills`, and whenever `member.skillLevels[requiredSkill]` is
truthy (present and nonzero) add the level to `skillScore` and bump
`skillCount`. -/
def skillAccum (m : Member) (t : Task) : Rat × Nat :=
  t.requiredSkills.foldl
    (fun acc s =>
      match lookupSkill m.skillLevels s with
      | some v => if v ≠ 0 then (acc.1 + v, acc.2 + 1) else acc
      | none => acc)
    (0, 0)

/-- `calculateMatchScore(member, task)` of `server.js`: `0` when no required
skill matched, otherwise the average matched level times `10` minus the
workload penalty `currentWorkload / maxCapacity * 20`, clamped below at `0`
by `Math.max` and not clamped above. -/
def calculateMatchScore (m : Member) (t : Task) : Rat :=
  if (skillAccum m t).2 = 0 then 0
  else
    max 0 ((skillAccum m t).1 / ((skillAccum m t).2 : Rat) * 10
      - m.currentWorkload / m.maxCapacity * 20)

/-- The capacity test of the member loop, stated positively: the loop skips
a member exactly when `currentWorkload + estimatedHours > maxCapacity`, so
a member is considered when the sum is at most the capacity (equality
allowed). -/
def eligible (t : Task) (m : Member) : Prop :=
  m.currentWorkload + t.estimatedHours ≤ m.maxCapacity

instance (t : Task) (m : Member) : Decidable (eligible t m) :=
  inferInstanceAs (Decidable (m.currentWorkload + t.estimatedHours ≤ m.maxCapacity))

/-- The member loop of `allocateTasks` for one task: scan the members in
input order, skip those over capacity, and keep the first strict
improvement of the score over the running `bestScore` (initially `-1`).
The running best keeps the member's index in the array together with the
member value, modelling the object reference `bestMember`. -/
def scanBestAux (t : Task) : Nat → Option (Nat × Member) × Rat → List Member →
    Option (Nat × Member) × Rat
  | _, best, [] => best
  | i, best, m :: rest =>
    if m.currentWorkload + t.estimatedHours > m.maxCapacity then
      scanBestAux t (i + 1) best rest
    else if best.2 < calculateMatchScore m t then
      scanBestAux t (i + 1) (some (i, m), calculateMatchScore m t) rest
    else
      scanBestAux t (i + 1) best rest

/-- The whole member scan, started with `bestMember = null`,
`bestScore = -1`. -/
def scanBest (t : Task) (ms : List Member) : Option (Nat × Member) × Rat :=
  scanBestAux t 0 (none, -1) ms

/-- One element of the `assignments` array returned by `allocateTasks`.
Assigned records carry no `reason` property, modelled by `reason = none`;
`matchScore` is the already `Math.round`ed value the source stores. -/
structure AssignmentRecord where
  taskId : Nat
  taskTitle : String
  memberId : Option Nat
  memberName : String
  matchScore : Int
  estimatedHours : Rat
  reason : Option String
  deriving DecidableEq

/-- The record pushed when a task could not be assigned. -/
def unassignedRecord (t : Task) : AssignmentRecord :=
  { taskId := t.id
    taskTitle := t.title
    memberId := none
    memberName := "Unassigned"
    matchScore := 0
    estimatedHours := t.estimatedHours
    reason := some "No available member with required skills" }

/-- The record pushed when `bestMember` is `bm` with raw score `s`. -/
def assignedRecord (t : Task) (bm : Member) (s : Rat) : AssignmentRecord :=
  { taskId := t.id
    taskTitle := t.title
    memberId := some bm.id
    memberName := bm.name
    matchScore := round s
    estimatedHours := t.estimatedHours
    reason := none }

/-- The state one allocation run mutates: the member array, the task array
(whose elements the source updates in place) and the `assignments` array
built so far. -/
structure AllocState where
  members : List Member
  tasks : List Task
  assignments : List AssignmentRecord
  deriving DecidableEq

/-- One iteration of the greedy loop, for the task `it.2` sitting at index
`it.1` of the original task array: scan the members, then either commit the
assignment (push the record, add the hours to the winner's workload, set
`task.assignedTo`) or push the unassigned record, leaving members and tasks
untouched. -/
def processTask (st : AllocState) (it : Nat × Task) : AllocState :=
  match (scanBest it.2 st.members).1 with
  | some jm =>
    if 0 < (scanBest it.2 st.members).2 then
      { members := st.members.set jm.1
          { jm.2 with currentWorkload := jm.2.currentWorkload + it.2.estimatedHours }
        tasks := st.tasks.set it.1 { it.2 with assignedTo := some jm.2.id }
        assignments := st.assignments ++
          [assignedRecord it.2 jm.2 (scanBest it.2 st.members).2] }
    else
      { st with assignments := st.assignments ++ [unassignedRecord it.2] }
  | none =>
    { st with assignments := st.assignments ++ [unassignedRecord it.2] }

/-- `allocateTasks(members, tasks)`: reset every workload to `0`, sort the
tasks by priority and deadline, then run the greedy loop over the sorted
list.  The final state holds the `assignments` array together with the
member and task arrays as the run leaves them. -/
def allocateTasks (ms : List Member) (ts : List Task) : AllocState :=
  (sortTasks ts).foldl processTask
    { members := ms.map fun m => { m with currentWorkload := 0 }
      tasks := ts
      assignments := [] }

/-- JavaScript division as the statistics use it: when the divisor is `0`
the result is not a finite number (`NaN` or an infinity), modelled by
`none`. -/
def divNF (a b : Rat) : Option Rat :=
  if b = 0 then none else some (a / b)

/-- The `stats` object of the `/api/allocate` response. -/
structure Stats where
  totalTasks : Nat
  assignedTasks : Nat
  unassignedTasks : Nat
  avgMatchScore : Int
  efficiency : Option Int
  deriving DecidableEq

/-- The statistics block of the `/api/allocate` route: `assignedTasks`
counts records with `memberId !== null`; `avgMatchScore` is
`sum of matchScore over records with matchScore > 0 / assignedTasks || 0`
(the `|| 0` turning the non-finite `0/0` into `0`) passed to `Math.round`;
`efficiency` is `Math.round(assignedTasks / totalTasks * 100)`, not a
finite number when there are no tasks. -/
def computeStats (ts : List Task) (assignments : List AssignmentRecord) : Stats :=
  { totalTasks := ts.length
    assignedTasks := (assignments.filter fun a => decide (a.memberId ≠ none)).length
    unassignedTasks :=
      ts.length - (assignments.filter fun a => decide (a.memberId ≠ none)).length
    avgMatchScore := round ((divNF
      ((((assignments.filter fun a => decide (0 < a.matchScore)).map
          fun a => a.matchScore).sum : Int) : Rat)
      (((assignments.filter fun a => decide (a.memberId ≠ none)).length : Nat) : Rat)).getD 0)
    efficiency := (divNF
      (((assignments.filter fun a => decide (a.memberId ≠ none)).length : Nat) : Rat)
      ((ts.length : Nat) : Rat)).map fun q => round (q * 100) }

/-- The statistics the `/api/allocate` route reports for given member and
task arrays: `totalTasks` comes from the task array, the rest from the
`assignments` returned by `allocateTasks` on the same arrays. -/
def allocateStats (ms : List Member) (ts : List Task) : Stats :=
  computeStats ts (allocateTasks ms ts).assignments

/-- The `/api/reset` route: set every member's `currentWorkload` to `0` and
every task's `assignedTo` to `null`. -/
def resetWorkloads (ms : List Member) (ts : List Task) : List Member × List Task :=
  (ms.map fun m => { m with currentWorkload := 0 },
   ts.map fun t => { t with assignedTo := none })

/-- A member with its only allocator-mutable field, `currentWorkload`,
cleared; two members agreeing under `memberKey` are indistinguishable to a
run of `allocateTasks`, which starts by resetting workloads. -/
def memberKey (m : Member) : Member := { m with currentWorkload := 0 }

/-- A task with its only allocator-mutable field, `assignedTo`, cleared;
`allocateTasks` never reads `assignedTo`, so two tasks agreeing under
`taskKey` are processed identically. -/
def taskKey (t : Task) : Task := { t with assignedTo := none }

/-- Clearing `assignedTo` on a tagged task; the tag is kept. -/
def keyTag (p : Nat × Task) : Nat × Task := (p.1, taskKey p.2)

/-- The scorer as claim C2 reads the spec: a required competency counts
whenever its name is contained in the proficiency mapping, even with
level `0`.  This follows the claim's words, to be compared with
`calculateMatchScore`, which follows the source. -/
def claimedMatchScore (m : Member) (t : Task) : Rat :=
  if (t.requiredSkills.filter fun s => (lookupSkill m.skillLevels s).isSome).length = 0 then 0
  else
    max 0 (((t.requiredSkills.filter fun s => (lookupSkill m.skillLevels s).isSome).map
          fun s => (lookupSkill m.skillLevels s).getD 0).sum
        / (((t.requiredSkills.filter fun s => (lookupSkill m.skillLevels s).isSome).length : Nat) : Rat)
        * 10
      - m.currentWorkload / m.maxCapacity * 20)

/-- The scorer as the source has it, restated through a filter: a required
competency counts exactly when its level is present and nonzero (truthy). -/
def truthyMatchScore (m : Member) (t : Task) : Rat :=
  if (t.requiredSkills.filter fun s =>
      decide ((lookupSkill m.skillLevels s).getD 0 ≠ 0)).length = 0 then 0
  else
    max 0 (((t.requiredSkills.filter fun s =>
          decide ((lookupSkill m.skillLevels s).getD 0 ≠ 0)).map
          fun s => (lookupSkill m.skillLevels s).getD 0).sum
        / (((t.requiredSkills.filter fun s =>
          decide ((lookupSkill m.skillLevels s).getD 0 ≠ 0)).length : Nat) : Rat)
        * 10
      - m.currentWorkload / m.maxCapacity * 20)

/-- Strict order the comparator induces on tasks: strictly higher priority
value first, then strictly earlier deadline among equal priorities. -/
def rankLt (a b : Task) : Prop :=
  priorityOrder b.priority < priorityOrder a.priority ∨
    (priorityOrder a.priority = priorityOrder b.priority ∧ a.deadline < b.deadline)

/-- Comparator ties: equal priority value and equal deadline. -/
def rankEq (a b : Task) : Prop :=
  priorityOrder a.priority = priorityOrder b.priority ∧ a.deadline = b.deadline

/-- The order the stable sort guarantees on the indexed task list: strictly
earlier by the comparator, or tied under the comparator and at a strictly
smaller index of the input array. -/
def stableRel (p q : Nat × Task) : Prop :=
  rankLt p.2 q.2 ∨ (rankEq p.2 q.2 ∧ p.1 < q.1)

/-- Shape of every record `allocateTasks` ever pushes: an unassigned record
carries exactly the fixed unassigned fields, an assigned record carries a
nonnegative rounded score. -/
def wellFormedRecord (r : AssignmentRecord) : Prop :=
  (r.memberId = none →
    r.matchScore = 0 ∧ r.memberName = "Unassigned" ∧
      r.reason = some "No available member with required skills") ∧
  (∀ x, r.memberId = some x → 0 ≤ r.matchScore)

/-- Concrete member for witnesses: one skill at level 5, capacity 10. -/
def memA : Member :=
  { id := 1, name := "A", skills := ["JS"], skillLevels := [("JS", 5)],
    currentWorkload := 0, maxCapacity := 10 }

/-- A second member identical in skills to `memA`, for tie-breaking. -/
def memB : Member :=
  { id := 2, name := "B", skills := ["JS"], skillLevels := [("JS", 5)],
    currentWorkload := 0, maxCapacity := 10 }

/-- Concrete member whose first required skill sits at level `0` in the
mapping: present but falsy. -/
def memZero : Member :=
  { id := 3, name := "Z", skills := ["A", "B"], skillLevels := [("A", 0), ("B", 5)],
    currentWorkload := 0, maxCapacity := 40 }

/-- Concrete task for witnesses: requires the skill of `memA`. -/
def taskW : Task :=
  { id := 1, title := "w", description := "", requiredSkills := ["JS"],
    estimatedHours := 4, priority := .high, deadline := 10, assignedTo := none }

/-- Concrete task requiring both skills of `memZero`. -/
def taskAB : Task :=
  { id := 2, title := "ab", description := "", requiredSkills := ["A", "B"],
    estimatedHours := 1, priority := .medium, deadline := 20, assignedTo := none }

/-- Concrete task that enters allocation already carrying an assignment
outcome (`assignedTo = some 5`) and that no member can take. -/
def taskPrior : Task :=
  { id := 3, title := "p", description := "", requiredSkills := ["X"],
    estimatedHours := 2, priority := .low, deadline := 30, assignedTo := some 5 }

/-- Concrete unassignable task entering with no prior outcome. -/
def taskFree : Task :=
  { id := 4, title := "f", description := "", requiredSkills := ["X"],
    estimatedHours := 2, priority := .low, deadline := 30, assignedTo := none }

/-- `memA` as the run on `[memA]`, `[taskW]` leaves it: 4 hours committed. -/
def memAafter : Member := { memA with currentWorkload := 4 }

/-- The raw score is never negative: it is `0` outright or a `Math.max`
with `0`. -/
lemma calculateMatchScore_nonneg (m : Member) (t : Task) :
    0 ≤ calculateMatchScore m t := by
  unfold calculateMatchScore
  split
  · exact le_refl 0
  · exact le_max_left 0 _

lemma insertSorted_perm {α : Type} (lt : α → α → Bool) (x : α) (l : List α) :
    (insertSorted lt x l).Perm (x :: l) := by
  induction l with
  | nil => exact List.Perm.refl _
  | cons y ys ih =>
    unfold insertSorted
    by_cases h : lt y x = true
    · rw [if_pos h]
      exact (ih.cons y).trans (List.Perm.swap x y ys)
    · rw [if_neg h]

lemma stableSort_perm {α : Type} (lt : α → α → Bool) (l : List α) :
    (stableSort lt l).Perm l := by
  induction l with
  | nil => exact List.Perm.refl _
  | cons x xs ih =>
    exact (insertSorted_perm lt x (stableSort lt xs)).trans (ih.cons x)

lemma mem_insertSorted {α : Type} {lt : α → α → Bool} {x a : α} {l : List α} :
    a ∈ insertSorted lt x l ↔ a = x ∨ a ∈ l := by
  rw [(insertSorted_perm lt x l).mem_iff, List.mem_cons]

lemma tagFrom_length {α : Type} (n : Nat) (l : List α) :
    (tagFrom n l).length = l.length := by
  induction l generalizing n with
  | nil => rfl
  | cons x xs ih => simp [tagFrom, ih]

lemma mem_tagFrom {α : Type} {n : Nat} {l : List α} {p : Nat × α}
    (h : p ∈ tagFrom n l) : n ≤ p.1 ∧ l.get? (p.1 - n) = some p.2 := by
  induction l generalizing n with
  | nil => cases h
  | cons x xs ih =>
    rcases List.mem_cons.mp h with rfl | h'
    · exact ⟨Nat.le_refl n, by simp⟩
    · obtain ⟨h1, h2⟩ := ih h'
      refine ⟨Nat.le_of_succ_le h1, ?_⟩
      have hd : p.1 - n = (p.1 - (n + 1)) + 1 := by omega
      rw [hd]
      simpa using h2

lemma mem_tagFrom_zero {α : Type} {l : List α} {p : Nat × α}
    (h : p ∈ tagFrom 0 l) : l.get? p.1 = some p.2 := by
  have := (mem_tagFrom h).2
  simpa using this

lemma tagFrom_pairwise {α : Type} (n : Nat) (l : List α) :
    (tagFrom n l).Pairwise fun p q => p.1 < q.1 := by
  induction l generalizing n with
  | nil => exact List.Pairwise.nil
  | cons x xs ih =>
    refine List.pairwise_cons.mpr ⟨?_, ih (n + 1)⟩
    intro q hq
    exact Nat.lt_of_lt_of_le (Nat.lt_succ_self n) (mem_tagFrom hq).1

lemma taggedBefore_iff {p q : Nat × Task} :
    taggedBefore p q = true ↔ rankLt p.2 q.2 := by
  unfold taggedBefore taskCompare rankLt
  simp only [decide_eq_true_eq]
  split
  · constructor
    · intro h; left; omega
    · rintro (h | ⟨h, _⟩)
      · omega
      · omega
  · constructor
    · intro h; right; omega
    · rintro (h | ⟨_, h⟩)
      · omega
      · omega

lemma not_rankLt_of_taggedBefore_false {p q : Nat × Task}
    (h : taggedBefore p q = false) : ¬ rankLt p.2 q.2 := by
  intro hr
  rw [taggedBefore_iff.mpr hr] at h
  cases h

lemma rank_trichotomy (a b : Task) : rankLt a b ∨ rankEq a b ∨ rankLt b a := by
  unfold rankLt rankEq
  omega

lemma rankLt_trans {a b c : Task} (h1 : rankLt a b) (h2 : rankLt b c) :
    rankLt a c := by
  unfold rankLt at *
  omega

lemma rankEq_rankLt_trans {a b c : Task} (h1 : rankEq a b) (h2 : rankLt b c) :
    rankLt a c := by
  unfold rankEq rankLt at *
  omega

lemma insertSorted_pairwise {x : Nat × Task} {l : List (Nat × Task)}
    (hl : l.Pairwise stableRel) (hx : ∀ y ∈ l, x.1 < y.1) :
    (insertSorted taggedBefore x l).Pairwise stableRel := by
  induction l with
  | nil => simp [insertSorted]
  | cons y ys ih =>
    obtain ⟨hy, hys⟩ := List.pairwise_cons.mp hl
    unfold insertSorted
    by_cases hb : taggedBefore y x = true
    · rw [if_pos hb]
      refine List.pairwise_cons.mpr ⟨?_, ih hys fun z hz => hx z (List.mem_cons_of_mem _ hz)⟩
      intro z hz
      rcases mem_insertSorted.mp hz with rfl | hz'
      · exact Or.inl (taggedBefore_iff.mp hb)
      · exact hy z hz'
    · rw [if_neg hb]
      have hnyx : ¬ rankLt y.2 x.2 :=
        not_rankLt_of_taggedBefore_false (Bool.eq_false_iff.mpr hb ▸ rfl)
      refine List.pairwise_cons.mpr ⟨?_, hl⟩
      intro z hz
      rcases rank_trichotomy x.2 z.2 with h1 | h2 | h3
      · exact Or.inl h1
      · exact Or.inr ⟨h2, hx z hz⟩
      · rcases List.mem_cons.mp hz with rfl | hz'
        · exact absurd h3 hnyx
        · rcases hy z hz' with hyz | ⟨hyz, _⟩
          · exact absurd (rankLt_trans hyz h3) hnyx
          · exact absurd (rankEq_rankLt_trans hyz h3) hnyx

lemma stableSort_pairwise {l : List (Nat × Task)}
    (hl : l.Pairwise fun p q => p.1 < q.1) :
    (stableSort taggedBefore l).Pairwise stableRel := by
  induction l with
  | nil => exact List.Pairwise.nil
  | cons x xs ih =>
    obtain ⟨hx, hxs⟩ := List.pairwise_cons.mp hl
    unfold stableSort
    refine insertSorted_pairwise (ih hxs) ?_
    intro y hy
    exact hx y ((stableSort_perm taggedBefore xs).mem_iff.mp hy)

lemma sortTasks_pairwise (ts : List Task) :
    (sortTasks ts).Pairwise stableRel :=
  stableSort_pairwise (tagFrom_pairwise 0 ts)

lemma sortTasks_perm (ts : List Task) :
    (sortTasks ts).Perm (tagFrom 0 ts) :=
  stableSort_perm taggedBefore (tagFrom 0 ts)

lemma sortTasks_length (ts : List Task) :
    (sortTasks ts).length = ts.length := by
  rw [(sortTasks_perm ts).length_eq, tagFrom_length]

lemma mem_sortTasks_get? {ts : List Task} {p : Nat × Task}
    (h : p ∈ sortTasks ts) : ts.get? p.1 = some p.2 :=
  mem_tagFrom_zero ((sortTasks_perm ts).subset h)

lemma sortTasks_pairwise_ne (ts : List Task) :
    (sortTasks ts).Pairwise fun p q => p.1 ≠ q.1 := by
  exact (List.Perm.pairwise_iff (fun h => Ne.symm h) (sortTasks_perm ts)).mpr
    ((tagFrom_pairwise 0 ts).imp fun h => Nat.ne_of_lt h)

/-- Full behaviour of the member loop, relative to a running best `b` and a
starting index `i`: either nothing beats `b` and it is returned unchanged,
or the result is the first member reaching the maximal score among the
considered (capacity-respecting) members that strictly beat `b`. -/
lemma scanBestAux_spec (t : Task) (ms : List Member) :
    ∀ (i : Nat) (b : Option (Nat × Member) × Rat),
      (scanBestAux t i b ms = b ∧
        ∀ m ∈ ms, eligible t m → calculateMatchScore m t ≤ b.2) ∨
      (∃ k bm, ms.get? k = some bm ∧ eligible t bm ∧
        b.2 < calculateMatchScore bm t ∧
        scanBestAux t i b ms = (some (i + k, bm), calculateMatchScore bm t) ∧
        ∀ k' bk, ms.get? k' = some bk → eligible t bk →
          calculateMatchScore bk t ≤ calculateMatchScore bm t ∧
          (k' < k → calculateMatchScore bk t < calculateMatchScore bm t)) := by
  induction ms with
  | nil =>
    intro i b
    exact Or.inl ⟨rfl, by simp⟩
  | cons m rest ih =>
    intro i b
    by_cases hel : eligible t m
    · have hcond : ¬ (m.currentWorkload + t.estimatedHours > m.maxCapacity) :=
        not_lt.mpr hel
      by_cases himp : b.2 < calculateMatchScore m t
      · have hstep : scanBestAux t i b (m :: rest)
            = scanBestAux t (i + 1) (some (i, m), calculateMatchScore m t) rest := by
          simp only [scanBestAux]
          rw [if_neg hcond, if_pos himp]
        rcases ih (i + 1) (some (i, m), calculateMatchScore m t) with
          ⟨heq, hall⟩ | ⟨k, bm, hget, helbm, hlt, heq, hmax⟩
        · refine Or.inr ⟨0, m, rfl, hel, himp, ?_, ?_⟩
          · rw [hstep, heq]
            simp
          · intro k' bk hget' hel'
            cases k' with
            | zero =>
              have hbk : m = bk := by simpa using hget'
              subst hbk
              exact ⟨le_refl _, fun h => absurd h (by omega)⟩
            | succ k'' =>
              have hbk : bk ∈ rest := List.get?_mem (by simpa using hget')
              exact ⟨hall bk hbk hel', fun h => absurd h (by omega)⟩
        · refine Or.inr ⟨k + 1, bm, by simpa using hget, helbm,
            lt_trans himp hlt, ?_, ?_⟩
          · rw [hstep, heq]
            have hidx : i + 1 + k = i + (k + 1) := by omega
            rw [hidx]
          · intro k' bk hget' hel'
            cases k' with
            | zero =>
              have hbk : m = bk := by simpa using hget'
              subst hbk
              exact ⟨le_of_lt hlt, fun _ => hlt⟩
            | succ k'' =>
              have hget'' : rest.get? k'' = some bk := by simpa using hget'
              obtain ⟨hle, hstrict⟩ := hmax k'' bk hget'' hel'
              exact ⟨hle, fun h => hstrict (by omega)⟩
      · have hstep : scanBestAux t i b (m :: rest)
            = scanBestAux t (i + 1) b rest := by
          simp only [scanBestAux]
          rw [if_neg hcond, if_neg himp]
        rcases ih (i + 1) b with
          ⟨heq, hall⟩ | ⟨k, bm, hget, helbm, hlt, heq, hmax⟩
        · refine Or.inl ⟨hstep.trans heq, ?_⟩
          intro m' hm' hel'
          rcases List.mem_cons.mp hm' with rfl | hm''
          · exact not_lt.mp himp
          · exact hall m' hm'' hel'
        · refine Or.inr ⟨k + 1, bm, by simpa using hget, helbm, hlt, ?_, ?_⟩
          · rw [hstep, heq]
            have hidx : i + 1 + k = i + (k + 1) := by omega
            rw [hidx]
          · intro k' bk hget' hel'
            cases k' with
            | zero =>
              have hbk : m = bk := by simpa using hget'
              subst hbk
              exact ⟨le_of_lt (lt_of_le_of_lt (not_lt.mp himp) hlt),
                fun _ => lt_of_le_of_lt (not_lt.mp himp) hlt⟩
            | succ k'' =>
              have hget'' : rest.get? k'' = some bk := by simpa using hget'
              obtain ⟨hle, hstrict⟩ := hmax k'' bk hget'' hel'
              exact ⟨hle, fun h => hstrict (by omega)⟩
    · have hcond : m.currentWorkload + t.estimatedHours > m.maxCapacity :=
        not_le.mp hel
      have hstep : scanBestAux t i b (m :: rest)
          = scanBestAux t (i + 1) b rest := by
        simp only [scanBestAux]
        rw [if_pos hcond]
      rcases ih (i + 1) b with
        ⟨heq, hall⟩ | ⟨k, bm, hget, helbm, hlt, heq, hmax⟩
      · refine Or.inl ⟨hstep.trans heq, ?_⟩
        intro m' hm' hel'
        rcases List.mem_cons.mp hm' with rfl | hm''
        · exact absurd hel' hel
        · exact hall m' hm'' hel'
      · refine Or.inr ⟨k + 1, bm, by simpa using hget, helbm, hlt, ?_, ?_⟩
        · rw [hstep, heq]
          have hidx : i + 1 + k = i + (k + 1) := by omega
          rw [hidx]
        · intro k' bk hget' hel'
          cases k' with
          | zero =>
            have hbk : m = bk := by simpa using hget'
            subst hbk
            exact absurd hel' hel
          | succ k'' =>
            have hget'' : rest.get? k'' = some bk := by simpa using hget'
            obtain ⟨hle, hstrict⟩ := hmax k'' bk hget'' hel'
            exact ⟨hle, fun h => hstrict (by omega)⟩

/-- A successful scan returns the member stored at the returned index, that
member respects the capacity check, the returned score is its score, and it
is the first member attaining the maximum score over all capacity-respecting
members. -/
lemma scanBest_some {t : Task} {ms : List Member} {j : Nat} {bm : Member} {s : Rat}
    (h : scanBest t ms = (some (j, bm), s)) :
    ms.get? j = some bm ∧ eligible t bm ∧ s = calculateMatchScore bm t ∧
    ∀ k bk, ms.get? k = some bk → eligible t bk →
      calculateMatchScore bk t ≤ s ∧ (k < j → calculateMatchScore bk t < s) := by
  rcases scanBestAux_spec t ms 0 (none, -1) with
    ⟨heq, _⟩ | ⟨k, bm', hget, hel, _, heq, hmax⟩
  · rw [scanBest, heq] at h
    simp at h
  · rw [scanBest, heq] at h
    rw [Prod.mk.injEq, Option.some.injEq, Prod.mk.injEq] at h
    obtain ⟨⟨hj, hbm⟩, hs⟩ := h
    subst hbm
    have hj' : k = j := by omega
    subst hj'
    subst hs
    exact ⟨hget, hel, rfl, hmax⟩

/-- A scan returning `bestMember = null` means no member passed the
capacity check, and the score is still the initial `-1`. -/
lemma scanBest_none {t : Task} {ms : List Member} {s : Rat}
    (h : scanBest t ms = (none, s)) :
    (∀ m ∈ ms, ¬ eligible t m) ∧ s = -1 := by
  rcases scanBestAux_spec t ms 0 (none, -1) with
    ⟨heq, hall⟩ | ⟨k, bm, hget, hel, _, heq, _⟩
  · rw [scanBest, heq] at h
    rw [Prod.mk.injEq] at h
    refine ⟨?_, h.2.symm⟩
    intro m hm hel'
    have h1 := hall m hm hel'
    have h2 := calculateMatchScore_nonneg m t
    have : (0 : Rat) ≤ -1 := le_trans h2 h1
    norm_num at this
  · rw [scanBest, heq] at h
    simp at h

lemma scanBest_of_no_eligible {t : Task} {ms : List Member}
    (h : ∀ m ∈ ms, ¬ eligible t m) :
    scanBest t ms = (none, -1) := by
  rcases scanBestAux_spec t ms 0 (none, -1) with
    ⟨heq, _⟩ | ⟨k, bm, hget, hel, _, _, _⟩
  · exact heq
  · exact absurd hel (h bm (List.get?_mem hget))

/-- The two outcomes of one loop iteration: either the scan found a member
with a strictly positive score and the assignment is committed, or the
unassigned record is pushed and members and tasks are untouched. -/
lemma processTask_cases (st : AllocState) (it : Nat × Task) :
    (∃ j bm, scanBest it.2 st.members = (some (j, bm), calculateMatchScore bm it.2) ∧
      0 < calculateMatchScore bm it.2 ∧
      processTask st it = ⟨st.members.set j
          { bm with currentWorkload := bm.currentWorkload + it.2.estimatedHours },
        st.tasks.set it.1 { it.2 with assignedTo := some bm.id },
        st.assignments ++ [assignedRecord it.2 bm (calculateMatchScore bm it.2)]⟩)
    ∨ processTask st it
        = ⟨st.members, st.tasks, st.assignments ++ [unassignedRecord it.2]⟩ := by
  rcases hscan : (scanBest it.2 st.members).1 with _ | ⟨j, bm⟩
  · refine Or.inr ?_
    unfold processTask
    rw [hscan]
  · by_cases hpos : 0 < (scanBest it.2 st.members).2
    · have hfull : scanBest it.2 st.members
          = (some (j, bm), (scanBest it.2 st.members).2) :=
        Prod.ext_iff.mpr ⟨hscan, rfl⟩
      have hs := (scanBest_some hfull).2.2.1
      refine Or.inl ⟨j, bm, ?_, ?_, ?_⟩
      · rw [← hs]
        exact hfull
      · rw [← hs]
        exact hpos
      · unfold processTask
        rw [hscan]
        dsimp only
        rw [if_pos hpos, hs]
    · refine Or.inr ?_
      unfold processTask
      rw [hscan]
      dsimp only
      rw [if_neg hpos]

lemma set_get?_self {α : Type} :
    ∀ (l : List α) (n : Nat) (a : α), l.get? n = some a → l.set n a = l := by
  intro l
  induction l with
  | nil => intro n a h; cases h
  | cons x xs ih =>
    intro n a h
    cases n with
    | zero =>
      have hx : x = a := by simpa using h
      rw [List.set_cons_zero, hx]
    | succ n' =>
      have h' : xs.get? n' = some a := by simpa using h
      rw [List.set_cons_succ, ih n' a h']

/-- Every loop iteration pushes exactly one record, with the task's id, and
the record is well formed; when the task stays unassigned the record is the
fixed one and the member and task arrays are untouched. -/
lemma processTask_assignments (st : AllocState) (it : Nat × Task) :
    ∃ r, (processTask st it).assignments = st.assignments ++ [r] ∧
      r.taskId = it.2.id ∧ wellFormedRecord r ∧
      (r.memberId = none →
        r = unassignedRecord it.2 ∧ (processTask st it).tasks = st.tasks ∧
          (processTask st it).members = st.members) := by
  rcases processTask_cases st it with ⟨j, bm, hscan, hpos, heq⟩ | heq
  · refine ⟨assignedRecord it.2 bm (calculateMatchScore bm it.2), ?_, rfl, ?_, ?_⟩
    · rw [heq]
    · constructor
      · intro h
        simp [assignedRecord] at h
      · intro x _
        show (0 : Int) ≤ round (calculateMatchScore bm it.2)
        rw [round_eq]
        refine Int.le_floor.mpr ?_
        push_cast
        linarith
    · intro h
      simp [assignedRecord] at h
  · refine ⟨unassignedRecord it.2, ?_, rfl, ?_, ?_⟩
    · rw [heq]
    · constructor
      · intro _
        exact ⟨rfl, rfl, rfl⟩
      · intro x hx
        simp [unassignedRecord] at hx
    · intro _
      rw [heq]
      exact ⟨rfl, rfl, rfl⟩

lemma processTask_tasks_get?_ne {st : AllocState} {it : Nat × Task} {i : Nat}
    (h : it.1 ≠ i) : ((processTask st it).tasks).get? i = st.tasks.get? i := by
  rcases processTask_cases st it with ⟨j, bm, _, _, heq⟩ | heq
  · rw [heq]
    exact List.get?_set_ne _ _ h
  · rw [heq]

lemma foldl_assignments_prefix (L : List (Nat × Task)) :
    ∀ st : AllocState, ∃ suff,
      (L.foldl processTask st).assignments = st.assignments ++ suff := by
  induction L with
  | nil => intro st; exact ⟨[], by simp⟩
  | cons p L ih =>
    intro st
    obtain ⟨r, hr, _, _, _⟩ := processTask_assignments st p
    obtain ⟨suff, hsuff⟩ := ih (processTask st p)
    refine ⟨[r] ++ suff, ?_⟩
    rw [List.foldl_cons, hsuff, hr, List.append_assoc]

lemma foldl_assignments_map_taskId (L : List (Nat × Task)) :
    ∀ st : AllocState,
      ((L.foldl processTask st).assignments).map (fun r => r.taskId)
        = (st.assignments.map fun r => r.taskId) ++ L.map fun p => p.2.id := by
  induction L with
  | nil => intro st; simp
  | cons p L ih =>
    intro st
    rw [List.foldl_cons, ih]
    obtain ⟨r, hr, hid, _, _⟩ := processTask_assignments st p
    rw [hr]
    simp [hid]

lemma foldl_assignments_wf (L : List (Nat × Task)) :
    ∀ st : AllocState, (∀ r ∈ st.assignments, wellFormedRecord r) →
      ∀ r ∈ (L.foldl processTask st).assignments, wellFormedRecord r := by
  induction L with
  | nil => intro st h; exact h
  | cons p L ih =>
    intro st h
    rw [List.foldl_cons]
    refine ih (processTask st p) ?_
    obtain ⟨r₀, hr₀, _, hwf, _⟩ := processTask_assignments st p
    intro r hr
    rw [hr₀] at hr
    rcases List.mem_append.mp hr with h' | h'
    · exact h r h'
    · rw [List.mem_singleton.mp h']
      exact hwf

lemma foldl_capacity (L : List (Nat × Task)) :
    ∀ st : AllocState, (∀ m ∈ st.members, m.currentWorkload ≤ m.maxCapacity) →
      ∀ m ∈ (L.foldl processTask st).members, m.currentWorkload ≤ m.maxCapacity := by
  induction L with
  | nil => intro st h; exact h
  | cons p L ih =>
    intro st h
    rw [List.foldl_cons]
    refine ih (processTask st p) ?_
    rcases processTask_cases st p with ⟨j, bm, hscan, _, heq⟩ | heq
    · rw [heq]
      intro m hm
      rcases List.mem_or_eq_of_mem_set hm with hm' | rfl
      · exact h m hm'
      · have hel : eligible p.2 bm := (scanBest_some hscan).2.1
        exact hel
    · rw [heq]
      exact h

lemma foldl_tasks_get?_ne (L : List (Nat × Task)) :
    ∀ (st : AllocState) (i : Nat), (∀ p ∈ L, p.1 ≠ i) →
      ((L.foldl processTask st).tasks).get? i = st.tasks.get? i := by
  induction L with
  | nil => intro st i _; rfl
  | cons p L ih =>
    intro st i h
    rw [List.foldl_cons, ih (processTask st p) i fun q hq => h q (List.mem_cons_of_mem _ hq)]
    exact processTask_tasks_get?_ne (h p (List.mem_cons_self _ _))

/-- The task array entry of a task whose record is unassigned is left
exactly as it was when the run started. -/
lemma foldl_unassigned_untouched (L : List (Nat × Task)) :
    ∀ st : AllocState, L.Pairwise (fun p q => p.1 ≠ q.1) →
      ∀ (k i : Nat) (t : Task) (r : AssignmentRecord),
        L.get? k = some (i, t) →
        ((L.foldl processTask st).assignments).get? (st.assignments.length + k) = some r →
        r.memberId = none →
        ((L.foldl processTask st).tasks).get? i = st.tasks.get? i := by
  induction L with
  | nil =>
    intro st _ k i t r hk
    cases hk
  | cons p L ih =>
    intro st hdist k i t r hk hr hu
    obtain ⟨hph, hpt⟩ := List.pairwise_cons.mp hdist
    obtain ⟨r₀, hr₀, _, _, hun⟩ := processTask_assignments st p
    cases k with
    | zero =>
      have hp : p = (i, t) := by simpa using hk
      rw [List.foldl_cons] at hr ⊢
      obtain ⟨suff, hsuff⟩ := foldl_assignments_prefix L (processTask st p)
      rw [hsuff, hr₀, List.append_assoc,
        List.get?_append_right (by omega)] at hr
      have hr' : r₀ = r := by
        have hidx : st.assignments.length + 0 - st.assignments.length = 0 := by omega
        rw [hidx] at hr
        simpa using hr
      subst hr'
      have htasks : (processTask st p).tasks = st.tasks := (hun hu).2.1
      have hother : ∀ q ∈ L, q.1 ≠ i := by
        intro q hq h'
        have := hph q hq
        rw [hp] at this
        exact this h'.symm
      rw [foldl_tasks_get?_ne L (processTask st p) i hother, htasks]
    | succ k' =>
      rw [List.foldl_cons] at hr ⊢
      have hlen : (processTask st p).assignments.length = st.assignments.length + 1 := by
        rw [hr₀]
        simp
      have hr' : ((L.foldl processTask (processTask st p)).assignments).get?
          ((processTask st p).assignments.length + k') = some r := by
        rw [hlen]
        have hidx : st.assignments.length + 1 + k' = st.assignments.length + (k' + 1) := by
          omega
        rw [hidx]
        exact hr
      have hk' : L.get? k' = some (i, t) := by simpa using hk
      rw [ih (processTask st p) hpt k' i t r hk' hr' hu]
      have hmem : (i, t) ∈ L := List.get?_mem hk'
      have hne : p.1 ≠ i := by
        have := hph (i, t) hmem
        simpa using this
      exact processTask_tasks_get?_ne hne

lemma processTask_members_memberKey (st : AllocState) (it : Nat × Task) :
    ((processTask st it).members).map memberKey = st.members.map memberKey := by
  rcases processTask_cases st it with ⟨j, bm, hscan, _, heq⟩ | heq
  · rw [heq]
    show ((st.members.set j _).map memberKey) = _
    rw [List.map_set]
    have hget : st.members.get? j = some bm := (scanBest_some hscan).1
    have hkey : memberKey { bm with currentWorkload := bm.currentWorkload + it.2.estimatedHours }
        = memberKey bm := rfl
    rw [hkey]
    refine set_get?_self _ _ _ ?_
    rw [List.get?_map, hget]
    rfl
  · rw [heq]

lemma foldl_members_memberKey (L : List (Nat × Task)) :
    ∀ st : AllocState,
      ((L.foldl processTask st).members).map memberKey = st.members.map memberKey := by
  induction L with
  | nil => intro st; rfl
  | cons p L ih =>
    intro st
    rw [List.foldl_cons, ih (processTask st p), processTask_members_memberKey]

lemma processTask_tasks_taskKey (st : AllocState) (it : Nat × Task)
    (h : st.tasks.get? it.1 = some it.2) :
    ((processTask st it).tasks).map taskKey = st.tasks.map taskKey := by
  rcases processTask_cases st it with ⟨j, bm, hscan, _, heq⟩ | heq
  · rw [heq]
    show ((st.tasks.set it.1 _).map taskKey) = _
    rw [List.map_set]
    have hkey : taskKey { it.2 with assignedTo := some bm.id } = taskKey it.2 := rfl
    rw [hkey]
    refine set_get?_self _ _ _ ?_
    rw [List.get?_map, h]
    rfl
  · rw [heq]

lemma foldl_tasks_taskKey (L : List (Nat × Task)) :
    ∀ st : AllocState, L.Pairwise (fun p q => p.1 ≠ q.1) →
      (∀ p ∈ L, st.tasks.get? p.1 = some p.2) →
      ((L.foldl processTask st).tasks).map taskKey = st.tasks.map taskKey := by
  induction L with
  | nil => intro st _ _; rfl
  | cons p L ih =>
    intro st hdist hts
    obtain ⟨hph, hpt⟩ := List.pairwise_cons.mp hdist
    rw [List.foldl_cons, ih (processTask st p) hpt ?_,
      processTask_tasks_taskKey st p (hts p (List.mem_cons_self _ _))]
    intro q hq
    rw [processTask_tasks_get?_ne (hph q hq)]
    exact hts q (List.mem_cons_of_mem _ hq)

lemma processTask_tasks_length (st : AllocState) (it : Nat × Task) :
    ((processTask st it).tasks).length = st.tasks.length := by
  rcases processTask_cases st it with ⟨j, bm, _, _, heq⟩ | heq
  · rw [heq]
    exact List.length_set _ _ _
  · rw [heq]

lemma foldl_tasks_length (L : List (Nat × Task)) :
    ∀ st : AllocState, ((L.foldl processTask st).tasks).length = st.tasks.length := by
  induction L with
  | nil => intro st; rfl
  | cons p L ih =>
    intro st
    rw [List.foldl_cons, ih (processTask st p), processTask_tasks_length]

/-- C1: for every list of members with `maxCapacity > 0` and every list of
tasks with `estimatedHours > 0`, after `allocateTasks` returns every member
satisfies `currentWorkload ≤ maxCapacity`.  The run starts from workload
`0 ≤ maxCapacity` and only ever adds a task's hours to a member that passed
the capacity check `currentWorkload + estimatedHours ≤ maxCapacity`. -/
theorem capacity_invariant (ms : List Member) (ts : List Task)
    (hcap : ∀ m ∈ ms, 0 < m.maxCapacity)
    (hest : ∀ t ∈ ts, 0 < t.estimatedHours) :
    ∀ m ∈ (allocateTasks ms ts).members, m.currentWorkload ≤ m.maxCapacity := by
  have h0 : ∀ m ∈ ms.map (fun m => { m with currentWorkload := (0 : Rat) }),
      m.currentWorkload ≤ m.maxCapacity := by
    intro m hm
    rcases List.mem_map.mp hm with ⟨m₀, hm₀, rfl⟩
    exact le_of_lt (hcap m₀ hm₀)
  exact foldl_capacity (sortTasks ts)
    ⟨ms.map fun m => { m with currentWorkload := 0 }, ts, []⟩ h0

/-- Witness for C1 at a concrete input: one member, one task it receives. -/
theorem capacity_invariant_witness :
    memAafter.currentWorkload ≤ memAafter.maxCapacity :=
  capacity_invariant [memA] [taskW] (by decide) (by decide) memAafter (by
    norm_num [allocateTasks, sortTasks, stableSort, tagFrom, insertSorted, processTask,
      scanBest, scanBestAux, calculateMatchScore, skillAccum, memA, memAafter, taskW,
      lookupSkill, max_def])

/-- C3: the `assignments` array lists the tasks in the priority/deadline
order, not the input order: its `taskId` column equals the id column of the
sorted working copy `sortTasks ts`, and that copy is (1) pairwise ordered by
descending mapped priority, then ascending deadline, ties kept in input
order (`stableRel` on the input-index tags), and (2) a permutation of the
input tagged with its positions. -/
theorem allocation_order (ms : List Member) (ts : List Task) :
    ((allocateTasks ms ts).assignments).map (fun r => r.taskId)
        = (sortTasks ts).map (fun p => p.2.id)
    ∧ (sortTasks ts).Pairwise stableRel
    ∧ (sortTasks ts).Perm (tagFrom 0 ts) := by
  refine ⟨?_, sortTasks_pairwise ts, sortTasks_perm ts⟩
  have h := foldl_assignments_map_taskId (sortTasks ts)
    ⟨ms.map fun m => { m with currentWorkload := 0 }, ts, []⟩
  simpa [allocateTasks] using h

/-- C4: a successful member scan returns exactly the member with the lowest
input index among the capacity-respecting members (`eligible`) attaining
the maximal score; an over-capacity member is never returned, and among
equal maximal scores the earliest member wins. -/
theorem selection_spec (ms : List Member) (t : Task) (j : Nat) (bm : Member) (s : Rat)
    (h : scanBest t ms = (some (j, bm), s)) :
    ms.get? j = some bm ∧ eligible t bm ∧ s = calculateMatchScore bm t ∧
      ∀ k bk, ms.get? k = some bk → eligible t bk →
        calculateMatchScore bk t ≤ s ∧ (k < j → calculateMatchScore bk t < s) :=
  scanBest_some h

/-- Witness for C4: two equally scored members, the scan picks the first,
and the second's score is bounded by the returned score. -/
theorem selection_spec_witness :
    calculateMatchScore memB taskW ≤ 50 ∧ eligible taskW memA := by
  have h := selection_spec [memA, memB] taskW 0 memA 50 (by
    norm_num [scanBest, scanBestAux, calculateMatchScore, skillAccum, memA, memB, taskW,
      lookupSkill, max_def])
  exact ⟨(h.2.2.2 1 memB rfl (by norm_num [eligible, memB, taskW])).1, h.2.1⟩

/-- C10: with an empty task list the allocator returns an empty assignments
array, the reported average match score is `0` (through the `|| 0` default),
and the efficiency division `assignedTasks / totalTasks` runs with divisor
`0`, so its non-finite branch is taken and no percentage is produced. -/
theorem empty_tasks_stats (ms : List Member) :
    (allocateTasks ms []).assignments = []
    ∧ (computeStats [] (allocateTasks ms []).assignments).avgMatchScore = 0
    ∧ (computeStats [] (allocateTasks ms []).assignments).efficiency = none := by
  have h : (allocateTasks ms []).assignments = [] := rfl
  refine ⟨h, ?_, ?_⟩
  · rw [h]
    simp [computeStats, divNF]
  · rw [h]
    simp [computeStats, divNF]

/-- C5: a task with no capacity-eligible member, or whose best score is
exactly `0`, gets the unassigned record (`memberId` absent, name
`"Unassigned"`, score `0`, the fixed reason string) and changes nothing
else; the run never aborts: it is a total function pushing exactly one
record per task, and every unassigned record of any run carries exactly
those fields. -/
theorem unassigned_outcome :
    (∀ (st : AllocState) (i : Nat) (t : Task),
      ((∀ m ∈ st.members, ¬ eligible t m) ∨ (scanBest t st.members).2 = 0) →
      processTask st (i, t)
        = ⟨st.members, st.tasks, st.assignments ++ [unassignedRecord t]⟩)
    ∧ (∀ (ms : List Member) (ts : List Task),
        ((allocateTasks ms ts).assignments).length = ts.length)
    ∧ (∀ (ms : List Member) (ts : List Task) (r : AssignmentRecord),
        r ∈ (allocateTasks ms ts).assignments → r.memberId = none →
          r.memberName = "Unassigned" ∧ r.matchScore = 0 ∧
            r.reason = some "No available member with required skills") := by
  refine ⟨?_, ?_, ?_⟩
  · intro st i t h
    rcases processTask_cases st (i, t) with ⟨j, bm, hscan, hpos, heq⟩ | heq
    · rcases h with hno | h0
      · rw [scanBest_of_no_eligible hno] at hscan
        simp at hscan
      · have hz : calculateMatchScore bm t = 0 := by
          rw [hscan] at h0
          exact h0
        rw [hz] at hpos
        exact absurd hpos (lt_irrefl 0)
    · exact heq
  · intro ms ts
    have h := foldl_assignments_map_taskId (sortTasks ts)
      ⟨ms.map fun m => { m with currentWorkload := 0 }, ts, []⟩
    have h' := congrArg List.length h
    simpa [allocateTasks, sortTasks_length] using h'
  · intro ms ts r hr hu
    have hr₀ : r ∈ ((sortTasks ts).foldl processTask
        (⟨ms.map fun m => { m with currentWorkload := 0 }, ts, []⟩ : AllocState)).assignments := hr
    have hwf := foldl_assignments_wf (sortTasks ts)
      ⟨ms.map fun m => { m with currentWorkload := 0 }, ts, []⟩
      (by intro r' hr'; cases hr') r hr₀
    obtain ⟨hsc, hnm, hrs⟩ := hwf.1 hu
    exact ⟨hnm, hsc, hrs⟩

/-- Witness for C5: no members at all, the task yields exactly the
unassigned record and leaves the state otherwise unchanged. -/
theorem unassigned_outcome_witness :
    processTask ⟨[], [], []⟩ (0, taskW)
      = ⟨[], [], [] ++ [unassignedRecord taskW]⟩ :=
  unassigned_outcome.1 ⟨[], [], []⟩ 0 taskW (Or.inl (by simp))

/-- C6 counterexample: the code never clears `assignedTo` on a task it
cannot assign.  `taskPrior` enters with `assignedTo = some 5`, its record is
marked unassigned (`memberId = none`), yet after the run its outcome is
still `some 5`, not the absent outcome the claim requires. -/
theorem unassigned_keeps_prior_cex :
    ((allocateTasks [] [taskPrior]).assignments).map (fun r => r.memberId) = [none]
    ∧ ((allocateTasks [] [taskPrior]).tasks).map (fun t => t.assignedTo) = [some 5] := by
  constructor <;>
    simp [allocateTasks, sortTasks, stableSort, tagFrom, insertSorted, processTask,
      scanBest, scanBestAux, taskPrior, unassignedRecord]

/-- C6 amended: a task whose record is marked unassigned keeps, after the
run, exactly the entry it had in the task array when the run started — so a
task that entered unassigned stays unassigned, while a previously set
outcome is left in place rather than cleared. -/
theorem unassigned_task_unchanged (ms : List Member) (ts : List Task)
    (k i : Nat) (t : Task) (r : AssignmentRecord)
    (hs : (sortTasks ts).get? k = some (i, t))
    (hr : ((allocateTasks ms ts).assignments).get? k = some r)
    (hu : r.memberId = none) :
    ts.get? i = some t ∧ ((allocateTasks ms ts).tasks).get? i = some t := by
  have hmem : (i, t) ∈ sortTasks ts := List.get?_mem hs
  have hts : ts.get? i = some t := mem_sortTasks_get? hmem
  have hr' : (((sortTasks ts).foldl processTask
      (⟨ms.map fun m => { m with currentWorkload := 0 }, ts, []⟩ : AllocState)).assignments).get?
      ((⟨ms.map fun m => { m with currentWorkload := 0 }, ts, []⟩ : AllocState).assignments.length + k)
      = some r := by
    simpa [allocateTasks] using hr
  have h := foldl_unassigned_untouched (sortTasks ts)
    ⟨ms.map fun m => { m with currentWorkload := 0 }, ts, []⟩
    (sortTasks_pairwise_ne ts) k i t r hs hr' hu
  exact ⟨hts, h.trans hts⟩

/-- Witness for C6 amended: an unassignable task entering unassigned is
still unassigned (its array entry unchanged) after the run. -/
theorem unassigned_task_unchanged_witness :
    [taskFree].get? 0 = some taskFree
    ∧ ((allocateTasks [] [taskFree]).tasks).get? 0 = some taskFree :=
  unassigned_task_unchanged [] [taskFree] 0 0 taskFree (unassignedRecord taskFree)
    (by simp [sortTasks, stableSort, tagFrom, insertSorted])
    (by simp [allocateTasks, sortTasks, stableSort, tagFrom, insertSorted, processTask,
      scanBest, scanBestAux])
    rfl

lemma lookupSkill_eq_none {l : List (String × Rat)} {s : String}
    (h : s ∉ l.map Prod.fst) : lookupSkill l s = none := by
  induction l with
  | nil => rfl
  | cons q rest ih =>
    obtain ⟨k, v⟩ := q
    simp only [List.map_cons, List.mem_cons] at h
    push_neg at h
    simp only [lookupSkill]
    rw [if_neg fun hk => h.1 hk.symm]
    exact ih h.2

lemma lookupSkill_filter_none {l : List (String × Rat)} {s : String}
    (p : String × Rat → Bool) (h : lookupSkill l s = none) :
    lookupSkill (l.filter p) s = none := by
  induction l with
  | nil => rfl
  | cons q rest ih =>
    obtain ⟨k, v⟩ := q
    simp only [lookupSkill] at h
    by_cases hk : k = s
    · rw [if_pos hk] at h
      cases h
    · rw [if_neg hk] at h
      rw [List.filter_cons]
      split
      · simp only [lookupSkill]
        rw [if_neg hk]
        exact ih h
      · exact ih h

/-- Looking a key up after dropping the zero-valued bindings: the result is
the original lookup with zero values turned into absence.  Needs unique
keys, which a JavaScript object guarantees. -/
lemma lookupSkill_filter_nz {l : List (String × Rat)}
    (hnd : (l.map Prod.fst).Nodup) (s : String) :
    lookupSkill (l.filter fun q => decide (q.2 ≠ 0)) s
      = match lookupSkill l s with
        | some v => if v ≠ 0 then some v else none
        | none => none := by
  induction l with
  | nil => rfl
  | cons q rest ih =>
    obtain ⟨k, v⟩ := q
    simp only [List.map_cons, List.nodup_cons] at hnd
    obtain ⟨hknot, hnd'⟩ := hnd
    by_cases hk : k = s
    · subst hk
      by_cases hv : v ≠ 0
      · rw [List.filter_cons, if_pos (by simpa using hv)]
        have h1 : lookupSkill ((k, v) :: List.filter (fun q => decide (q.2 ≠ 0)) rest) k
            = some v := by
          simp [lookupSkill]
        have h2 : lookupSkill ((k, v) :: rest) k = some v := by
          simp [lookupSkill]
        rw [h1, h2]
        dsimp only
        rw [if_pos hv]
      · rw [List.filter_cons, if_neg (by simpa using hv)]
        have h2 : lookupSkill ((k, v) :: rest) k = some v := by
          simp [lookupSkill]
        have hnone : lookupSkill rest k = none := lookupSkill_eq_none hknot
        rw [lookupSkill_filter_none _ hnone, h2]
        dsimp only
        rw [if_neg hv]
    · have h2 : lookupSkill ((k, v) :: rest) s = lookupSkill rest s := by
        simp only [lookupSkill]
        rw [if_neg hk]
      rw [List.filter_cons, h2]
      split
      · have h3 : lookupSkill ((k, v) :: List.filter (fun q => decide (q.2 ≠ 0)) rest) s
            = lookupSkill (List.filter (fun q => decide (q.2 ≠ 0)) rest) s := by
          simp only [lookupSkill]
          rw [if_neg hk]
        rw [h3]
        exact ih hnd'
      · exact ih hnd'

/-- The skill fold never moves when every required skill looks up to a zero
(or absent) level. -/
lemma skillFold_const (m : Member) :
    ∀ ss : List String,
      (∀ s ∈ ss, ∀ v, lookupSkill m.skillLevels s = some v → v = 0) →
      ∀ acc : Rat × Nat,
        ss.foldl (fun acc s =>
          match lookupSkill m.skillLevels s with
          | some v => if v ≠ 0 then (acc.1 + v, acc.2 + 1) else acc
          | none => acc) acc = acc := by
  intro ss
  induction ss with
  | nil => intro _ acc; rfl
  | cons s ss ih =>
    intro h acc
    rw [List.foldl_cons]
    have hstep : (match lookupSkill m.skillLevels s with
        | some v => if v ≠ 0 then (acc.1 + v, acc.2 + 1) else acc
        | none => acc) = acc := by
      rcases hl : lookupSkill m.skillLevels s with _ | v
      · rfl
      · have hv : v = 0 := h s (List.mem_cons_self _ _) v hl
        simp [hv]
    rw [hstep]
    exact ih (fun s' hs' => h s' (List.mem_cons_of_mem _ hs')) acc

lemma skillAccum_zero (m : Member) (t : Task)
    (h : ∀ s ∈ t.requiredSkills, ∀ v, lookupSkill m.skillLevels s = some v → v = 0) :
    skillAccum m t = (0, 0) := by
  unfold skillAccum
  exact skillFold_const m t.requiredSkills h (0, 0)

lemma skillAccum_filter (m : Member) (t : Task)
    (hnd : (m.skillLevels.map Prod.fst).Nodup) :
    skillAccum { m with skillLevels := m.skillLevels.filter fun q => decide (q.2 ≠ 0) } t
      = skillAccum m t := by
  unfold skillAccum
  dsimp only
  refine List.foldl_ext _ _ _ ?_
  intro acc s _
  rw [lookupSkill_filter_nz hnd s]
  rcases hl : lookupSkill m.skillLevels s with _ | v
  · rfl
  · dsimp only
    by_cases hv : v ≠ 0
    · rw [if_pos hv]
    · rw [if_neg hv]
      dsimp only
      rw [if_neg hv]

lemma calculateMatchScore_filter (m : Member) (t : Task)
    (hnd : (m.skillLevels.map Prod.fst).Nodup) :
    calculateMatchScore { m with skillLevels := m.skillLevels.filter fun q => decide (q.2 ≠ 0) } t
      = calculateMatchScore m t := by
  unfold calculateMatchScore
  rw [skillAccum_filter m t hnd]

/-- C9: a required competency whose stored level is `0` is falsy for the
lookup `member.skillLevels[requiredSkill]`, so it adds nothing and does not
bump the matched count: the scorer state and the score are those of the
member with all zero-valued bindings removed, and a member whose every
required competency looks up to `0` (or is absent) scores exactly `0`. -/
theorem falsy_skill_level (m : Member) (t : Task)
    (hnd : (m.skillLevels.map Prod.fst).Nodup) :
    skillAccum { m with skillLevels := m.skillLevels.filter fun q => decide (q.2 ≠ 0) } t
        = skillAccum m t
    ∧ calculateMatchScore
        { m with skillLevels := m.skillLevels.filter fun q => decide (q.2 ≠ 0) } t
        = calculateMatchScore m t
    ∧ ((∀ s ∈ t.requiredSkills, ∀ v, lookupSkill m.skillLevels s = some v → v = 0) →
        calculateMatchScore m t = 0) := by
  refine ⟨skillAccum_filter m t hnd, calculateMatchScore_filter m t hnd, ?_⟩
  intro h
  unfold calculateMatchScore
  rw [skillAccum_zero m t h]
  simp

/-- The skill fold, written as a sum and a count over the truthy-matching
required skills. -/
lemma skillFold_filter_eq (m : Member) :
    ∀ (ss : List String) (a : Rat) (c : Nat),
      ss.foldl (fun acc s =>
        match lookupSkill m.skillLevels s with
        | some v => if v ≠ 0 then (acc.1 + v, acc.2 + 1) else acc
        | none => acc) (a, c)
      = (a + ((ss.filter fun s => decide ((lookupSkill m.skillLevels s).getD 0 ≠ 0)).map
            fun s => (lookupSkill m.skillLevels s).getD 0).sum,
         c + (ss.filter fun s => decide ((lookupSkill m.skillLevels s).getD 0 ≠ 0)).length) := by
  intro ss
  induction ss with
  | nil => intro a c; simp
  | cons s ss ih =>
    intro a c
    rw [List.foldl_cons, List.filter_cons]
    rcases hl : lookupSkill m.skillLevels s with _ | v
    · dsimp only
      rw [ih a c]
      simp
    · dsimp only
      by_cases hv : v ≠ 0
      · rw [if_pos hv, ih (a + v) (c + 1)]
        simp [hl, hv, add_assoc, Nat.add_comm]
      · have hv0 : v = 0 := by
          push_neg at hv
          exact hv
        rw [if_neg hv, ih a c]
        simp [hv0]

/-- Witness for C9 at `memZero` (`A` at level `0`, `B` at level `5`) and a
task requiring both. -/
theorem falsy_skill_level_witness :
    skillAccum
        { memZero with skillLevels := memZero.skillLevels.filter fun q => decide (q.2 ≠ 0) }
        taskAB
        = skillAccum memZero taskAB
    ∧ calculateMatchScore
        { memZero with skillLevels := memZero.skillLevels.filter fun q => decide (q.2 ≠ 0) }
        taskAB
        = calculateMatchScore memZero taskAB
    ∧ ((∀ s ∈ taskAB.requiredSkills, ∀ v, lookupSkill memZero.skillLevels s = some v → v = 0) →
        calculateMatchScore memZero taskAB = 0) :=
  falsy_skill_level memZero taskAB (by decide)

lemma skillAccum_eq_filter (m : Member) (t : Task) :
    skillAccum m t
      = (((t.requiredSkills.filter fun s =>
            decide ((lookupSkill m.skillLevels s).getD 0 ≠ 0)).map
            fun s => (lookupSkill m.skillLevels s).getD 0).sum,
         (t.requiredSkills.filter fun s =>
            decide ((lookupSkill m.skillLevels s).getD 0 ≠ 0)).length) := by
  unfold skillAccum
  rw [skillFold_filter_eq m t.requiredSkills 0 0]
  simp

/-- C2 counterexample: the claim counts a required competency as matched
whenever its name is contained in the proficiency mapping; the code's
truthiness test skips a contained competency whose level is `0`.  On
`memZero` (`A ↦ 0`, `B ↦ 5`, workload `0`) and a task requiring `A` and
`B`, the claimed formula gives `max(0, (0+5)/2 · 10) = 25` while the code
returns `max(0, 5/1 · 10) = 50`. -/
theorem matchScore_containment_cex :
    calculateMatchScore memZero taskAB = 50
    ∧ claimedMatchScore memZero taskAB = 25
    ∧ (50 : Rat) ≠ 25 := by
  refine ⟨?_, ?_, by norm_num⟩
  · simp [calculateMatchScore, skillAccum, memZero, taskAB, lookupSkill]
    norm_num [max_def]
  · simp [claimedMatchScore, memZero, taskAB, lookupSkill]
    norm_num [max_def]

/-- C2 amended: the scorer adds the level and bumps the matched count for
each required competency contained in the mapping with a nonzero (truthy)
level; a matched count of `0` returns exactly `0`, and otherwise the result
is `max(0, sum/count · 10 − workload/capacity · 20)` with the workload as
it stands before the task is applied, never negative and not clamped
above. -/
theorem matchScore_formula (m : Member) (t : Task) :
    calculateMatchScore m t = truthyMatchScore m t
    ∧ 0 ≤ calculateMatchScore m t := by
  refine ⟨?_, calculateMatchScore_nonneg m t⟩
  unfold calculateMatchScore truthyMatchScore
  rw [skillAccum_eq_filter m t]

/-- Summing `matchScore` over the records with a positive score gives the
same total as summing over the assigned records: unassigned records score
`0` and assigned records score at least `0`, so the two filters differ only
in records contributing `0`. -/
lemma filter_pos_sum_eq (l : List AssignmentRecord)
    (h : ∀ r ∈ l, wellFormedRecord r) :
    ((l.filter fun a => decide (0 < a.matchScore)).map fun a => a.matchScore).sum
      = ((l.filter fun a => decide (a.memberId ≠ none)).map fun a => a.matchScore).sum := by
  induction l with
  | nil => rfl
  | cons r l ih =>
    have hr := h r (List.mem_cons_self _ _)
    have ih' := ih fun r' hr' => h r' (List.mem_cons_of_mem _ hr')
    rw [List.filter_cons, List.filter_cons]
    rcases hmem : r.memberId with _ | x
    · have h0 : r.matchScore = 0 := (hr.1 hmem).1
      simp [hmem, h0, ih']
    · have hge : 0 ≤ r.matchScore := hr.2 x hmem
      rcases lt_or_eq_of_le hge with hpos | hzero
      · simp [hmem, hpos, ih']
      · simp [hmem, ← hzero, ih']

lemma allocate_assignments_wf (ms : List Member) (ts : List Task) :
    ∀ r ∈ (allocateTasks ms ts).assignments, wellFormedRecord r := by
  intro r hr
  have hr₀ : r ∈ ((sortTasks ts).foldl processTask
      (⟨ms.map fun m => { m with currentWorkload := 0 }, ts, []⟩ : AllocState)).assignments := hr
  exact foldl_assignments_wf (sortTasks ts)
    ⟨ms.map fun m => { m with currentWorkload := 0 }, ts, []⟩
    (by intro r' hr'; cases hr') r hr₀

/-- C7: the reported statistics.  `totalTasks` is the task count,
`assignedTasks` counts records with a present member id, `unassignedTasks`
is their difference; `avgMatchScore` is `0` when nothing is assigned and
otherwise the rounded average of `matchScore` over the assigned records
only (records whose score rounded to `0` still count in the divisor); for a
nonempty task list `efficiency` is `round(assigned/total · 100)`. -/
theorem stats_spec (ms : List Member) (ts : List Task) :
    (allocateStats ms ts).totalTasks = ts.length
    ∧ (allocateStats ms ts).assignedTasks
        = (((allocateTasks ms ts).assignments).filter
            fun a => decide (a.memberId ≠ none)).length
    ∧ (allocateStats ms ts).unassignedTasks
        = (allocateStats ms ts).totalTasks - (allocateStats ms ts).assignedTasks
    ∧ ((allocateStats ms ts).assignedTasks = 0 → (allocateStats ms ts).avgMatchScore = 0)
    ∧ ((allocateStats ms ts).assignedTasks ≠ 0 →
        (allocateStats ms ts).avgMatchScore
          = round (((((allocateTasks ms ts).assignments).filter
                fun a => decide (a.memberId ≠ none)).map fun a => a.matchScore).sum
              / ((allocateStats ms ts).assignedTasks : Rat)))
    ∧ (ts ≠ [] →
        (allocateStats ms ts).efficiency
          = some (round (((allocateStats ms ts).assignedTasks : Rat)
              / ((allocateStats ms ts).totalTasks : Rat) * 100))) := by
  refine ⟨rfl, rfl, rfl, ?_, ?_, ?_⟩
  · intro h
    unfold allocateStats computeStats at h ⊢
    dsimp only at h ⊢
    rw [h]
    simp [divNF]
  · intro h
    unfold allocateStats computeStats at h ⊢
    dsimp only at h ⊢
    rw [divNF, if_neg (by exact_mod_cast h)]
    rw [Option.getD_some]
    have hsum := filter_pos_sum_eq ((allocateTasks ms ts).assignments)
      (allocate_assignments_wf ms ts)
    rw [hsum]
  · intro h
    unfold allocateStats computeStats
    dsimp only
    rw [divNF, if_neg ?_]
    · rfl
    · have : ts.length ≠ 0 := fun h0 => h (List.length_eq_zero.mp h0)
      exact_mod_cast this

/-- Witness for C7 at one member and one assignable task: efficiency is
reported as the rounded percentage. -/
theorem stats_spec_witness :
    (allocateStats [memA] [taskW]).efficiency
      = some (round (((allocateStats [memA] [taskW]).assignedTasks : Rat)
          / ((allocateStats [memA] [taskW]).totalTasks : Rat) * 100)) :=
  (stats_spec [memA] [taskW]).2.2.2.2.2 (by simp)

lemma taggedBefore_keyTag (p q : Nat × Task) :
    taggedBefore (keyTag p) (keyTag q) = taggedBefore p q := rfl

lemma tagFrom_keyTag (n : Nat) :
    ∀ l l' : List Task, l.map taskKey = l'.map taskKey →
      (tagFrom n l).map keyTag = (tagFrom n l').map keyTag := by
  intro l
  induction l generalizing n with
  | nil =>
    intro l' h
    cases l' with
    | nil => rfl
    | cons y ys => simp at h
  | cons x xs ih =>
    intro l' h
    cases l' with
    | nil => simp at h
    | cons y ys =>
      simp only [List.map_cons, List.cons.injEq] at h
      obtain ⟨hxy, hxs⟩ := h
      simp only [tagFrom, List.map_cons, List.cons.injEq]
      exact ⟨by simp [keyTag, hxy], ih (n + 1) ys hxs⟩

lemma insertSorted_keyTag (x x' : Nat × Task) (hx : keyTag x = keyTag x') :
    ∀ l l' : List (Nat × Task), l.map keyTag = l'.map keyTag →
      (insertSorted taggedBefore x l).map keyTag
        = (insertSorted taggedBefore x' l').map keyTag := by
  intro l
  induction l with
  | nil =>
    intro l' hl
    cases l' with
    | nil => simp [insertSorted, hx]
    | cons z zs => simp at hl
  | cons y ys ih =>
    intro l' hl
    cases l' with
    | nil => simp at hl
    | cons z zs =>
      simp only [List.map_cons, List.cons.injEq] at hl
      obtain ⟨hyz, hys⟩ := hl
      unfold insertSorted
      have hcond : taggedBefore y x = taggedBefore z x' := by
        rw [← taggedBefore_keyTag y x, ← taggedBefore_keyTag z x', hyz, hx]
      by_cases hb : taggedBefore y x = true
      · rw [if_pos hb, if_pos (hcond ▸ hb)]
        simp only [List.map_cons, List.cons.injEq]
        exact ⟨hyz, ih zs hys⟩
      · rw [if_neg hb, if_neg (hcond ▸ hb)]
        simp only [List.map_cons, List.cons.injEq]
        exact ⟨hx, hyz, hys⟩

lemma stableSort_keyTag :
    ∀ l l' : List (Nat × Task), l.map keyTag = l'.map keyTag →
      (stableSort taggedBefore l).map keyTag
        = (stableSort taggedBefore l').map keyTag := by
  intro l
  induction l with
  | nil =>
    intro l' hl
    cases l' with
    | nil => rfl
    | cons z zs => simp at hl
  | cons x xs ih =>
    intro l' hl
    cases l' with
    | nil => simp at hl
    | cons y ys =>
      simp only [List.map_cons, List.cons.injEq] at hl
      obtain ⟨hxy, hxs⟩ := hl
      unfold stableSort
      exact insertSorted_keyTag x y hxy _ _ (ih ys hxs)

lemma sortTasks_keyTag {ts ts' : List Task} (h : ts.map taskKey = ts'.map taskKey) :
    (sortTasks ts).map keyTag = (sortTasks ts').map keyTag :=
  stableSort_keyTag _ _ (tagFrom_keyTag 0 ts ts' h)

lemma taskKey_fields {t t' : Task} (h : taskKey t = taskKey t') :
    t.id = t'.id ∧ t.title = t'.title ∧ t.requiredSkills = t'.requiredSkills
      ∧ t.estimatedHours = t'.estimatedHours := by
  have hid := congrArg Task.id h
  have htitle := congrArg Task.title h
  have hreq := congrArg Task.requiredSkills h
  have hest := congrArg Task.estimatedHours h
  exact ⟨hid, htitle, hreq, hest⟩

lemma calculateMatchScore_taskKey {t t' : Task} (h : taskKey t = taskKey t')
    (m : Member) : calculateMatchScore m t = calculateMatchScore m t' := by
  obtain ⟨_, _, hreq, _⟩ := taskKey_fields h
  unfold calculateMatchScore skillAccum
  rw [hreq]

lemma scanBestAux_taskKey {t t' : Task} (h : taskKey t = taskKey t') :
    ∀ (ms : List Member) (i : Nat) (b : Option (Nat × Member) × Rat),
      scanBestAux t i b ms = scanBestAux t' i b ms := by
  obtain ⟨_, _, _, hest⟩ := taskKey_fields h
  intro ms
  induction ms with
  | nil => intro i b; rfl
  | cons m rest ih =>
    intro i b
    simp only [scanBestAux]
    rw [hest, calculateMatchScore_taskKey h m]
    by_cases hc : m.currentWorkload + t'.estimatedHours > m.maxCapacity
    · rw [if_pos hc, if_pos hc, ih (i + 1) b]
    · rw [if_neg hc, if_neg hc]
      by_cases hs : b.2 < calculateMatchScore m t'
      · rw [if_pos hs, if_pos hs, ih (i + 1) _]
      · rw [if_neg hs, if_neg hs, ih (i + 1) b]

lemma assignedRecord_taskKey {t t' : Task} (h : taskKey t = taskKey t')
    (bm : Member) (s : Rat) : assignedRecord t bm s = assignedRecord t' bm s := by
  obtain ⟨hid, htitle, _, hest⟩ := taskKey_fields h
  unfold assignedRecord
  rw [hid, htitle, hest]

lemma unassignedRecord_taskKey {t t' : Task} (h : taskKey t = taskKey t') :
    unassignedRecord t = unassignedRecord t' := by
  obtain ⟨hid, htitle, _, hest⟩ := taskKey_fields h
  unfold unassignedRecord
  rw [hid, htitle, hest]

/-- One loop iteration behaves identically on two states with equal member
and assignments arrays, for two tagged tasks differing at most in the
`assignedTo` they carry: same resulting members, same resulting records. -/
lemma processTask_keyTag {p p' : Nat × Task} (hp : keyTag p = keyTag p')
    {st st' : AllocState} (hm : st.members = st'.members)
    (ha : st.assignments = st'.assignments) :
    (processTask st p).members = (processTask st' p').members
    ∧ (processTask st p).assignments = (processTask st' p').assignments := by
  have ht : taskKey p.2 = taskKey p'.2 := congrArg Prod.snd hp
  obtain ⟨_, _, _, hest⟩ := taskKey_fields ht
  have hscan : scanBest p.2 st.members = scanBest p'.2 st'.members := by
    unfold scanBest
    rw [hm, scanBestAux_taskKey ht st'.members 0 (none, -1)]
  unfold processTask
  rw [hscan]
  rcases h1 : (scanBest p'.2 st'.members).1 with _ | jm
  · dsimp only
    exact ⟨hm, by rw [ha, unassignedRecord_taskKey ht]⟩
  · dsimp only
    by_cases h2 : 0 < (scanBest p'.2 st'.members).2
    · simp only [if_pos h2]
      refine ⟨?_, ?_⟩
      · rw [hm, hest]
      · rw [ha, assignedRecord_taskKey ht]
    · simp only [if_neg h2]
      exact ⟨hm, by rw [ha, unassignedRecord_taskKey ht]⟩

lemma foldl_keyTag :
    ∀ (L L' : List (Nat × Task)) (st st' : AllocState),
      L.map keyTag = L'.map keyTag → st.members = st'.members →
      st.assignments = st'.assignments →
      (L.foldl processTask st).members = (L'.foldl processTask st').members
        ∧ (L.foldl processTask st).assignments = (L'.foldl processTask st').assignments := by
  intro L
  induction L with
  | nil =>
    intro L' st st' hL hm ha
    cases L' with
    | nil => exact ⟨hm, ha⟩
    | cons q L'' => simp at hL
  | cons p L ih =>
    intro L' st st' hL hm ha
    cases L' with
    | nil => simp at hL
    | cons q L'' =>
      simp only [List.map_cons, List.cons.injEq] at hL
      obtain ⟨hpq, hLL⟩ := hL
      rw [List.foldl_cons, List.foldl_cons]
      obtain ⟨hm', ha'⟩ := processTask_keyTag hpq hm ha
      exact ih L'' (processTask st p) (processTask st' q) hLL hm' ha'

/-- A run of `allocateTasks` only looks at the members through their
workload-cleared form and at the tasks through their `assignedTo`-cleared
form: the produced records and final members agree whenever those agree. -/
lemma allocateTasks_key_congr {ms ms' : List Member} {ts ts' : List Task}
    (hm : ms.map memberKey = ms'.map memberKey)
    (ht : ts.map taskKey = ts'.map taskKey) :
    (allocateTasks ms ts).members = (allocateTasks ms' ts').members
    ∧ (allocateTasks ms ts).assignments = (allocateTasks ms' ts').assignments := by
  unfold allocateTasks
  exact foldl_keyTag (sortTasks ts) (sortTasks ts') _ _ (sortTasks_keyTag ht) hm rfl

lemma allocateTasks_members_key (ms : List Member) (ts : List Task) :
    ((allocateTasks ms ts).members).map memberKey = ms.map memberKey := by
  unfold allocateTasks
  rw [foldl_members_memberKey]
  dsimp only
  rw [List.map_map]
  rfl

lemma allocateTasks_tasks_key (ms : List Member) (ts : List Task) :
    ((allocateTasks ms ts).tasks).map taskKey = ts.map taskKey := by
  unfold allocateTasks
  exact foldl_tasks_taskKey (sortTasks ts) _ (sortTasks_pairwise_ne ts)
    fun p hp => mem_sortTasks_get? hp

lemma allocateTasks_tasks_length (ms : List Member) (ts : List Task) :
    ((allocateTasks ms ts).tasks).length = ts.length := by
  unfold allocateTasks
  exact foldl_tasks_length (sortTasks ts) _

lemma computeStats_length_congr {ts ts' : List Task}
    (h : ts.length = ts'.length) (a : List AssignmentRecord) :
    computeStats ts a = computeStats ts' a := by
  unfold computeStats
  rw [h]

/-- C8: resetting workloads and assignment outcomes and then allocating
reproduces the records and statistics of allocating the original data, and
running `allocateTasks` twice in a row on the state it leaves behind gives
identical records and statistics: the run starts by clearing workloads and
never reads `assignedTo`. -/
theorem reset_then_allocate (ms : List Member) (ts : List Task) :
    (allocateTasks (resetWorkloads ms ts).1 (resetWorkloads ms ts).2).assignments
        = (allocateTasks ms ts).assignments
    ∧ computeStats (resetWorkloads ms ts).2
        (allocateTasks (resetWorkloads ms ts).1 (resetWorkloads ms ts).2).assignments
        = computeStats ts (allocateTasks ms ts).assignments
    ∧ (allocateTasks (allocateTasks ms ts).members (allocateTasks ms ts).tasks).assignments
        = (allocateTasks ms ts).assignments
    ∧ computeStats (allocateTasks ms ts).tasks
        (allocateTasks (allocateTasks ms ts).members (allocateTasks ms ts).tasks).assignments
        = computeStats ts (allocateTasks ms ts).assignments := by
  have hm1 : ((resetWorkloads ms ts).1).map memberKey = ms.map memberKey := by
    unfold resetWorkloads
    dsimp only
    rw [List.map_map]
    rfl
  have ht1 : ((resetWorkloads ms ts).2).map taskKey = ts.map taskKey := by
    unfold resetWorkloads
    dsimp only
    rw [List.map_map]
    rfl
  have h1 := allocateTasks_key_congr hm1 ht1
  have h2 := allocateTasks_key_congr (allocateTasks_members_key ms ts)
    (allocateTasks_tasks_key ms ts)
  refine ⟨h1.2, ?_, h2.2, ?_⟩
  · rw [h1.2]
    refine computeStats_length_congr ?_ _
    unfold resetWorkloads
    simp
  · rw [h2.2]
    exact computeStats_length_congr (allocateTasks_tasks_length ms ts) _

end STA
